import Mathlib

/-!
Verification of the provisioner subsystem
(`node/core/provisioner/src/lib.rs`) against its specification.

The Rust code is shallowly embedded: candidate hashes, relay-parent
hashes and validator indices become `Nat`, bitvecs become `List Bool`,
fallible paths become `Option`/`Bool` results, and the stateful main
loop becomes an explicit step function on a state type.  Every
definition is translated directly from the source file; line numbers in
the doc comments refer to `node/core/provisioner/src/lib.rs`.
-/

namespace Provisioner

/-! ## Delivery fan-out (`send_inherent_data`, lines 412-418)

The tail of `send_inherent_data` delivers the single computed
`ProvisionerInherentData` to each waiter in turn:

  for return_sender in return_senders {
      return_sender
          .send(inherent_data.clone())
          .map_err(|_data| Error::InherentDataReturnChannel)?;
  }

A `oneshot::Sender::send` fails exactly when the receiving end has been
dropped, and the `?` operator returns from `send_inherent_data` at the
first such failure. -/

/-- Model of the delivery loop.  `data` is the single computed inherent
data value; each waiter is a `Bool` recording whether its receiver is
still alive.  The first component records what each waiter received
(`some data` is the clone of the one computed value, `none` means the
waiter got nothing); the second component is `true` for `Ok(())` and
`false` for the early `Err(InherentDataReturnChannel)` return raised by
the `?` operator, which abandons the remaining waiters. -/
def sendToWaiters (data : Nat) : List Bool → List (Option Nat) × Bool
  | [] => ([], true)
  | live :: rest =>
    if live then
      let r := sendToWaiters data rest
      (some data :: r.1, r.2)
    else
      (none :: rest.map (fun _ => none), false)

/-! ## Backed-candidate ordering check (`select_candidates`, lines 588-598)

  let mut backed_idx = 0;
  for selected in selected_candidates {
      if selected ==
          candidates.get(backed_idx).ok_or(Error::BackedCandidateOrderingProblem)?.hash()
      {
          backed_idx += 1;
      }
  }
  if candidates.len() != backed_idx {
      Err(Error::BackedCandidateOrderingProblem)?;
  }
-/

/-- The linear walk of the ordering check.  `selected` is the requested
candidate-hash list, `reply` the hashes of the backing subsystem's
reply, `idx` the current pointer (`backed_idx`).  Returns `none` for the
early `Err(BackedCandidateOrderingProblem)` raised by
`candidates.get(backed_idx).ok_or(..)?` when the pointer runs past the
end of the reply, otherwise `some` of the final pointer. -/
def ordering_walk : List Nat → List Nat → Nat → Option Nat
  | [], _, idx => some idx
  | s :: ss, reply, idx =>
    match reply[idx]? with
    | none => none
    | some c => if s = c then ordering_walk ss reply (idx + 1) else ordering_walk ss reply idx

/-- The complete verification of the backing subsystem's reply: the walk
must complete without indexing past the reply, and the final pointer
must equal the reply's length.  `false` models
`Err(BackedCandidateOrderingProblem)`. -/
def backed_order_check (selected reply : List Nat) : Bool :=
  match ordering_walk selected reply 0 with
  | none => false
  | some idx => idx == reply.length

/-! ### Lemmas about the ordering walk -/

theorem ordering_walk_sublist (selected reply : List Nat) (i : Nat)
    (h : ordering_walk selected reply i = some reply.length) :
    (reply.drop i).Sublist selected := by
  induction selected generalizing i with
  | nil =>
    simp only [ordering_walk, Option.some.injEq] at h
    subst h
    simp
  | cons s ss ih =>
    rw [ordering_walk] at h
    cases hr : reply[i]? with
    | none => simp [hr] at h
    | some c =>
      simp only [hr] at h
      have hi : i < reply.length := by
        by_contra hge
        rw [List.getElem?_eq_none (by omega)] at hr
        exact absurd hr (by simp)
      have hdrop : reply.drop i = reply[i] :: reply.drop (i + 1) :=
        List.drop_eq_getElem_cons hi
      have hc : reply[i] = c := by
        have hg := List.getElem?_eq_getElem hi
        rw [hg] at hr
        injection hr
      by_cases hsc : s = c
      · rw [if_pos hsc] at h
        have := ih (i + 1) h
        rw [hdrop, hc, ← hsc]
        exact List.Sublist.cons₂ s this
      · rw [if_neg hsc] at h
        exact List.Sublist.cons s (ih i h)

theorem ordering_walk_full (selected : List Nat) : ∀ pre : List Nat,
    ordering_walk selected (pre ++ selected) pre.length = some (pre ++ selected).length := by
  induction selected with
  | nil => intro pre; simp [ordering_walk]
  | cons s ss ih =>
    intro pre
    have hget : (pre ++ s :: ss)[pre.length]? = some s := by
      rw [List.getElem?_append_right (Nat.le_refl _)]
      simp
    simp only [ordering_walk, hget, if_pos rfl]
    have h1 : pre.length + 1 = (pre ++ [s]).length := by simp
    have h2 : pre ++ s :: ss = (pre ++ [s]) ++ ss := by simp
    rw [h2, h1]
    exact ih (pre ++ [s])

theorem getD_map_none (l : List Bool) (i : Nat) :
    (l.map (fun _ => (none : Option Nat))).getD i none = none := by
  induction l generalizing i with
  | nil => simp
  | cons a l ih => cases i <;> simp [ih]

/-- Claim C1 (amended): on success every waiter receives the same single
computed inherent data, but delivery stops at the first broken receiver:
a waiter receives the data exactly when its own receiver and every
earlier receiver are alive, and the loop returns `Ok` exactly when every
receiver is alive.  A live waiter positioned after a broken one receives
nothing, because the `?` on `send(..)` returns
`Err(InherentDataReturnChannel)` immediately. -/
theorem claim_C1_delivery (data : Nat) (senders : List Bool) :
    (sendToWaiters data senders).1.length = senders.length ∧
    (∀ i, i < senders.length →
      ((sendToWaiters data senders).1.getD i none = some data ↔
        ∀ j, j ≤ i → senders.getD j false = true)) ∧
    ((sendToWaiters data senders).2 = true ↔
      ∀ j, j < senders.length → senders.getD j false = true) := by
  induction senders with
  | nil => simp [sendToWaiters]
  | cons live rest ih =>
    obtain ⟨ihlen, ihget, ihok⟩ := ih
    cases live with
    | false =>
      refine ⟨by simp [sendToWaiters], ?_, ?_⟩
      · intro i hi
        constructor
        · intro habs
          exfalso
          rcases i with _ | i' <;> simp [sendToWaiters, getD_map_none] at habs
        · intro hall
          have h0 := hall 0 (Nat.zero_le _)
          simp at h0
      · constructor
        · intro habs
          simp [sendToWaiters] at habs
        · intro hall
          have h0 := hall 0 (by simp)
          simp at h0
    | true =>
      refine ⟨by simp [sendToWaiters, ihlen], ?_, ?_⟩
      · intro i hi
        rcases i with _ | i'
        · constructor
          · intro _ j hj
            interval_cases j
            simp
          · intro _
            simp [sendToWaiters]
        · have hrec := ihget i' (by simpa using hi)
          constructor
          · intro h j hj
            rcases j with _ | j'
            · simp
            · have hh : (sendToWaiters data rest).1.getD i' none = some data := by
                simpa [sendToWaiters] using h
              simpa using hrec.mp hh j' (by omega)
          · intro h
            have : (sendToWaiters data rest).1.getD i' none = some data := by
              apply hrec.mpr
              intro j hj
              simpa using h (j + 1) (by omega)
            simpa [sendToWaiters] using this
      · constructor
        · intro h j hj
          rcases j with _ | j'
          · simp
          · have hh : (sendToWaiters data rest).2 = true := by
              simpa [sendToWaiters] using h
            simpa using ihok.mp hh j' (by simpa using hj)
        · intro h
          have : (sendToWaiters data rest).2 = true := by
            apply ihok.mpr
            intro j hj
            simpa using h (j + 1) (by simp; omega)
          simpa [sendToWaiters] using this

/-- Claim C1 as stated is false at a concrete input: with waiters
`[broken, live]`, the live waiter at position 1 sits after the broken
receiver at position 0 and receives nothing, because the `?` on
`send(..)` aborts the delivery loop at the broken receiver. -/
theorem claim_C1_counterexample :
    ¬ ((sendToWaiters 7 [false, true]).1.getD 1 none = some 7) := by decide

theorem claim_C1_delivery_witness :
    (sendToWaiters 7 [true, true]).1.getD 1 none = some 7 :=
  ((claim_C1_delivery 7 [true, true]).2.1 1 (by decide)).mpr (by decide)

/-- Claim C2 (amended): every reply accepted by the verification walk of
`select_candidates` is an order-preserving subsequence of the requested
order, and the full reply equal to the request is always accepted; but
the converse fails: a reply that is exhausted before the request's last
processed entry is rejected with `BackedCandidateOrderingProblem` by the
`ok_or` inside the walk, even when it is a subsequence of the request. -/
theorem claim_C2_ordering_check (selected reply : List Nat) :
    (backed_order_check selected reply = true → reply.Sublist selected) ∧
    backed_order_check selected selected = true := by
  constructor
  · intro h
    rw [backed_order_check] at h
    cases hw : ordering_walk selected reply 0 with
    | none => rw [hw] at h; exact absurd h (by simp)
    | some idx =>
      rw [hw] at h
      have hidx : idx = reply.length := by simpa using h
      subst hidx
      have := ordering_walk_sublist selected reply 0 hw
      simpa using this
  · rw [backed_order_check]
    have hfull := ordering_walk_full selected []
    simp only [List.nil_append, List.length_nil] at hfull
    rw [hfull]
    simp

/-- Claim C2 as stated is false at a concrete input: the empty reply to
the non-empty request `[0]` is an order-preserving subsequence of the
request, yet the walk fails with `BackedCandidateOrderingProblem`
because `candidates.get(0).ok_or(..)?` errors on the empty reply. -/
theorem claim_C2_counterexample :
    List.Sublist ([] : List Nat) [0] ∧ backed_order_check [0] [] = false :=
  ⟨List.nil_sublist _, by decide⟩

theorem claim_C2_ordering_check_witness : List.Sublist [5] [5] :=
  (claim_C2_ordering_check [5] [5]).1 (by decide)

/-! ## Bitfield selection (`select_availability_bitfields`, lines 431-490)

Validator indices and relay-parent hashes are `Nat`; the bitvec payload
is a `List Bool`.  The `BTreeMap<ValidatorIndex, SignedAvailabilityBitfield>`
is embedded as an association list kept strictly sorted by key. -/

/-- `SignedAvailabilityBitfield`: the signature plays no role in the
provisioner, so only the validator index and the payload are kept. -/
structure Bitfield where
  validator_index : Nat
  payload : List Bool
deriving DecidableEq

/-- `ScheduledCore` (only `para_id` is consumed by the provisioner). -/
structure ScheduledCore where
  para_id : Nat
deriving DecidableEq

/-- The fields of `OccupiedCore` read by the provisioner. -/
structure OccupiedCore where
  availability : List Bool
  next_up_on_available : Option ScheduledCore
  time_out_at : Nat
  next_up_on_time_out : Option ScheduledCore
deriving DecidableEq

/-- `CoreState` from `polkadot_primitives::v2`. -/
inductive CoreState where
  | Free : CoreState
  | Scheduled : ScheduledCore → CoreState
  | Occupied : OccupiedCore → CoreState
deriving DecidableEq

/-- `CoreState::is_occupied`. -/
def CoreState.is_occupied : CoreState → Bool
  | CoreState.Occupied _ => true
  | _ => false

/-- `BitSlice::count_ones` on a payload. -/
def count_ones (l : List Bool) : Nat := l.count true

/-- `BTreeMap::get` on the sorted association list. -/
def mapGet : List (Nat × Bitfield) → Nat → Option Bitfield
  | [], _ => none
  | (k, v) :: rest, key => if key = k then some v else mapGet rest key

/-- `BTreeMap::insert` on the sorted association list (replaces the
value when the key is present). -/
def mapInsert : List (Nat × Bitfield) → Nat → Bitfield → List (Nat × Bitfield)
  | [], k, v => [(k, v)]
  | (k0, v0) :: rest, k, v =>
    if k < k0 then (k, v) :: (k0, v0) :: rest
    else if k = k0 then (k, v) :: rest
    else (k0, v0) :: mapInsert rest k v

/-- Lines 451-453: `selected.get(&bitfield.validator_index()).map_or(true,
|b| b.payload().0.count_ones() < bitfield.payload().0.count_ones())`. -/
def is_better_than (m : List (Nat × Bitfield)) (bitfield : Bitfield) : Bool :=
  match mapGet m bitfield.validator_index with
  | none => true
  | some b => decide (count_ones b.payload < count_ones bitfield.payload)

/-- Lines 465-476: the loop over `cores.iter().enumerate().filter(|v|
!v.1.is_occupied())` looking for a payload bit
(`bitfield.payload().0.get(idx).as_deref().unwrap_or(&false)`) set for
an unoccupied core. -/
def has_bit_on_unoccupied (cores : List CoreState) (payload : List Bool) : Bool :=
  (List.range cores.length).any fun idx =>
    !(cores.getD idx CoreState.Free).is_occupied && payload.getD idx false

/-- The body of the labelled loop `'a: for bitfield in bitfields` (lines
445-479): drop on length mismatch, drop unless strictly better than the
already-selected bitfield for the same validator, drop when a bit is set
for an unoccupied core, otherwise insert into the map. -/
def select_step (cores : List CoreState) (m : List (Nat × Bitfield)) (bitfield : Bitfield) :
    List (Nat × Bitfield) :=
  if bitfield.payload.length ≠ cores.length then m
  else if !(is_better_than m bitfield) then m
  else if has_bit_on_unoccupied cores bitfield.payload then m
  else mapInsert m bitfield.validator_index bitfield

/-- `select_availability_bitfields` (lines 431-490).  The final
`selected.into_iter().map(|(_, b)| b).collect()` becomes taking the
values of the sorted association list.  The leaf hash is only used for
logging. -/
def select_availability_bitfields (cores : List CoreState) (bitfields : List Bitfield)
    (_leaf_hash : Nat) : List Bitfield :=
  (bitfields.foldl (select_step cores) []).map Prod.snd

/-! ### Lemmas about the selection map -/

theorem mem_mapInsert_sub {m : List (Nat × Bitfield)} {k : Nat} {v : Bitfield}
    {e : Nat × Bitfield} (h : e ∈ mapInsert m k v) : e = (k, v) ∨ e ∈ m := by
  induction m with
  | nil => simpa [mapInsert] using h
  | cons kv rest ih =>
    obtain ⟨k0, v0⟩ := kv
    rw [mapInsert] at h
    by_cases h1 : k < k0
    · rw [if_pos h1, List.mem_cons] at h
      exact h
    · rw [if_neg h1] at h
      by_cases h2 : k = k0
      · rw [if_pos h2, List.mem_cons] at h
        rcases h with h | h
        · exact Or.inl h
        · exact Or.inr (List.mem_cons_of_mem _ h)
      · rw [if_neg h2, List.mem_cons] at h
        rcases h with h | h
        · subst h
          exact Or.inr (List.mem_cons_self _ _)
        · rcases ih h with h' | h'
          · exact Or.inl h'
          · exact Or.inr (List.mem_cons_of_mem _ h')

theorem mapInsert_pairwise {m : List (Nat × Bitfield)} {k : Nat} {v : Bitfield}
    (h : m.Pairwise (fun a b => a.1 < b.1)) :
    (mapInsert m k v).Pairwise (fun a b => a.1 < b.1) := by
  induction m with
  | nil => simp [mapInsert]
  | cons kv rest ih =>
    obtain ⟨k0, v0⟩ := kv
    rw [List.pairwise_cons] at h
    obtain ⟨h0, hrest⟩ := h
    rw [mapInsert]
    by_cases h1 : k < k0
    · rw [if_pos h1]
      refine List.Pairwise.cons ?_ (List.Pairwise.cons h0 hrest)
      intro e he
      rw [List.mem_cons] at he
      rcases he with he | he
      · subst he
        exact h1
      · exact lt_trans h1 (h0 _ he)
    · rw [if_neg h1]
      by_cases h2 : k = k0
      · rw [if_pos h2]
        exact List.Pairwise.cons (fun e he => h2 ▸ h0 _ he) hrest
      · rw [if_neg h2]
        refine List.Pairwise.cons ?_ (ih hrest)
        intro e he
        rcases mem_mapInsert_sub he with he' | he'
        · subst he'
          omega
        · exact h0 _ he'

theorem mapGet_mapInsert_self (m : List (Nat × Bitfield)) (k : Nat) (v : Bitfield) :
    mapGet (mapInsert m k v) k = some v := by
  induction m with
  | nil => simp [mapInsert, mapGet]
  | cons kv rest ih =>
    obtain ⟨k0, v0⟩ := kv
    rw [mapInsert]
    by_cases h1 : k < k0
    · rw [if_pos h1, mapGet, if_pos rfl]
    · rw [if_neg h1]
      by_cases h2 : k = k0
      · rw [if_pos h2, mapGet, if_pos rfl]
      · rw [if_neg h2, mapGet, if_neg h2]
        exact ih

theorem mapInsert_append {m : List (Nat × Bitfield)} {k : Nat} {v : Bitfield}
    (h : ∀ e ∈ m, e.1 < k) : mapInsert m k v = m ++ [(k, v)] := by
  induction m with
  | nil => simp [mapInsert]
  | cons kv rest ih =>
    obtain ⟨k0, v0⟩ := kv
    have hk0 : k0 < k := h _ (List.mem_cons_self _ _)
    rw [mapInsert, if_neg (by omega), if_neg (by omega)]
    rw [ih (fun e he => h _ (List.mem_cons_of_mem _ he))]
    simp

theorem mapGet_eq_none {m : List (Nat × Bitfield)} {k : Nat}
    (h : ∀ e ∈ m, e.1 ≠ k) : mapGet m k = none := by
  induction m with
  | nil => rfl
  | cons kv rest ih =>
    obtain ⟨k0, v0⟩ := kv
    rw [mapGet, if_neg (by intro he; exact h _ (List.mem_cons_self _ _) he.symm)]
    exact ih fun e he => h _ (List.mem_cons_of_mem _ he)

/-- A payload that is structurally valid against `cores`: its length is
the number of cores and every set bit corresponds to an occupied core. -/
def goodPayload (cores : List CoreState) (payload : List Bool) : Prop :=
  payload.length = cores.length ∧
  ∀ i, payload.getD i false = true → (cores.getD i CoreState.Free).is_occupied = true

theorem has_bit_on_unoccupied_eq_false {cores : List CoreState} {payload : List Bool}
    (hlen : payload.length = cores.length) :
    has_bit_on_unoccupied cores payload = false ↔
      ∀ i, payload.getD i false = true →
        (cores.getD i CoreState.Free).is_occupied = true := by
  rw [has_bit_on_unoccupied, List.any_eq_false]
  constructor
  · intro h i hbit
    have hi : i < payload.length := by
      by_contra hge
      rw [List.getD_eq_getElem?_getD, List.getElem?_eq_none (by omega)] at hbit
      simp at hbit
    have hne := h i (List.mem_range.mpr (by omega))
    by_contra hocc
    rw [Bool.not_eq_true] at hocc
    exact hne (show (!(cores.getD i CoreState.Free).is_occupied &&
      payload.getD i false) = true by rw [hocc, hbit]; rfl)
  · intro h idx hidx
    rw [List.mem_range] at hidx
    intro habs
    simp only [Bool.and_eq_true, Bool.not_eq_true'] at habs
    have hocc := h idx habs.2
    rw [habs.1] at hocc
    simp at hocc

/-- The invariant of the selection map maintained by the loop of
`select_availability_bitfields`: keys strictly increase (it is a
`BTreeMap`), every entry is keyed by its bitfield's validator index, and
every stored payload is structurally valid against `cores`. -/
def MapInv (cores : List CoreState) (m : List (Nat × Bitfield)) : Prop :=
  m.Pairwise (fun a b => a.1 < b.1) ∧
  ∀ e ∈ m, e.1 = e.2.validator_index ∧ goodPayload cores e.2.payload

theorem select_step_inv {cores : List CoreState} {m : List (Nat × Bitfield)}
    {bitfield : Bitfield} (hm : MapInv cores m) :
    MapInv cores (select_step cores m bitfield) := by
  rw [select_step]
  by_cases h1 : bitfield.payload.length ≠ cores.length
  · rw [if_pos h1]
    exact hm
  · rw [if_neg h1]
    rw [not_not] at h1
    by_cases h2 : (!is_better_than m bitfield) = true
    · rw [if_pos h2]
      exact hm
    · rw [if_neg h2]
      by_cases h3 : has_bit_on_unoccupied cores bitfield.payload = true
      · rw [if_pos h3]
        exact hm
      · rw [if_neg h3]
        rw [Bool.not_eq_true] at h3
        constructor
        · exact mapInsert_pairwise hm.1
        · intro e he
          rcases mem_mapInsert_sub he with he' | he'
          · subst he'
            exact ⟨rfl, h1, (has_bit_on_unoccupied_eq_false h1).mp h3⟩
          · exact hm.2 e he'

theorem select_fold_inv (cores : List CoreState) (bitfields : List Bitfield) :
    ∀ m : List (Nat × Bitfield), MapInv cores m →
      MapInv cores (bitfields.foldl (select_step cores) m) := by
  induction bitfields with
  | nil => exact fun m hm => hm
  | cons b bs ih => exact fun m hm => ih _ (select_step_inv hm)

/-- Claim C3: for every cores list, input bitfield list and leaf hash,
every bitfield in the output of `select_availability_bitfields` has a
payload of length equal to the number of cores with set bits only at
occupied cores, and the output's validator indices are pairwise
distinct. -/
theorem claim_C3_selected_bitfields_valid (cores : List CoreState)
    (bitfields : List Bitfield) (leaf_hash : Nat) :
    (∀ b ∈ select_availability_bitfields cores bitfields leaf_hash,
      b.payload.length = cores.length ∧
      ∀ i, b.payload.getD i false = true →
        (cores.getD i CoreState.Free).is_occupied = true) ∧
    (select_availability_bitfields cores bitfields leaf_hash).Pairwise
      (fun b1 b2 => b1.validator_index ≠ b2.validator_index) := by
  have hinv : MapInv cores (bitfields.foldl (select_step cores) []) :=
    select_fold_inv cores bitfields [] ⟨List.Pairwise.nil, by simp⟩
  constructor
  · intro b hb
    rw [select_availability_bitfields, List.mem_map] at hb
    obtain ⟨e, he, rfl⟩ := hb
    exact (hinv.2 e he).2
  · rw [select_availability_bitfields, List.pairwise_map]
    refine List.Pairwise.imp_of_mem ?_ hinv.1
    intro a b ha hb hlt
    rw [← (hinv.2 a ha).1, ← (hinv.2 b hb).1]
    omega

theorem claim_C3_selected_bitfields_valid_witness :
    (Bitfield.mk 0 [true]).payload.length =
        [CoreState.Occupied (OccupiedCore.mk [] none 0 none)].length ∧
      ∀ i, (Bitfield.mk 0 [true]).payload.getD i false = true →
        (([CoreState.Occupied (OccupiedCore.mk [] none 0 none)].getD i
          CoreState.Free)).is_occupied = true :=
  (claim_C3_selected_bitfields_valid
      [CoreState.Occupied (OccupiedCore.mk [] none 0 none)] [Bitfield.mk 0 [true]] 0).1
    (Bitfield.mk 0 [true]) (by decide)

/-- Claim C7: inside `select_availability_bitfields`, when a bitfield is
processed whose validator index is already present in the selection map,
it replaces the stored bitfield exactly when it has strictly more set
bits; on an equal count (or fewer) the earlier, first-seen bitfield is
kept.  The hypotheses say the new bitfield passes the structural checks
(matching payload length, no bit set for an unoccupied core). -/
theorem claim_C7_strict_improvement (cores : List CoreState)
    (m : List (Nat × Bitfield)) (b b0 : Bitfield)
    (hget : mapGet m b.validator_index = some b0)
    (hlen : b.payload.length = cores.length)
    (hbits : has_bit_on_unoccupied cores b.payload = false) :
    mapGet (select_step cores m b) b.validator_index =
      some (if count_ones b0.payload < count_ones b.payload then b else b0) := by
  by_cases hc : count_ones b0.payload < count_ones b.payload
  · rw [select_step, if_neg (by simp [hlen]),
      if_neg (by simp [is_better_than, hget, hc]), if_neg (by simp [hbits]),
      mapGet_mapInsert_self, if_pos hc]
  · rw [select_step, if_neg (by simp [hlen]),
      if_pos (by simp [is_better_than, hget, hc]), hget, if_neg hc]

theorem claim_C7_strict_improvement_witness :
    mapGet
        (select_step [CoreState.Occupied (OccupiedCore.mk [] none 0 none)]
          [(0, Bitfield.mk 0 [false])] (Bitfield.mk 0 [true])) 0 =
      some (Bitfield.mk 0 [true]) := by
  have h := claim_C7_strict_improvement
    [CoreState.Occupied (OccupiedCore.mk [] none 0 none)]
    [(0, Bitfield.mk 0 [false])] (Bitfield.mk 0 [true]) (Bitfield.mk 0 [false])
    (by decide) (by decide) (by decide)
  simpa using h

theorem select_fold_append (cores : List CoreState) (bs : List Bitfield) :
    ∀ m : List (Nat × Bitfield),
      (∀ e ∈ m, ∀ b ∈ bs, e.1 < b.validator_index) →
      (∀ b ∈ bs, goodPayload cores b.payload) →
      bs.Pairwise (fun a b => a.validator_index < b.validator_index) →
      bs.foldl (select_step cores) m = m ++ bs.map (fun b => (b.validator_index, b)) := by
  induction bs with
  | nil =>
    intro m _ _ _
    simp
  | cons b bs ih =>
    intro m hlt hgood hsorted
    have hgb := hgood b (List.mem_cons_self _ _)
    have hnone : mapGet m b.validator_index = none := by
      refine mapGet_eq_none fun e he => ?_
      have := hlt e he b (List.mem_cons_self _ _)
      omega
    have hnobit : has_bit_on_unoccupied cores b.payload = false :=
      (has_bit_on_unoccupied_eq_false hgb.1).mpr hgb.2
    have hstep : select_step cores m b = m ++ [(b.validator_index, b)] := by
      rw [select_step, if_neg (by simp [hgb.1]),
        if_neg (by simp [is_better_than, hnone]), if_neg (by simp [hnobit])]
      exact mapInsert_append fun e he => hlt e he b (List.mem_cons_self _ _)
    rw [List.foldl_cons, hstep,
      ih (m ++ [(b.validator_index, b)]) ?_ (fun b' hb' => hgood b' (List.mem_cons_of_mem _ hb'))
        (List.pairwise_cons.mp hsorted).2]
    · simp
    · intro e he b' hb'
      rw [List.mem_append] at he
      rcases he with he | he
      · exact hlt e he b' (List.mem_cons_of_mem _ hb')
      · simp only [List.mem_singleton] at he
        subst he
        exact (List.pairwise_cons.mp hsorted).1 b' hb'

/-- Claim C8: `select_availability_bitfields` is idempotent — running
the selector on its own output (with the same cores, any leaf hashes)
returns exactly the same output sequence. -/
theorem claim_C8_idempotent (cores : List CoreState) (bitfields : List Bitfield)
    (h1 h2 : Nat) :
    select_availability_bitfields cores
        (select_availability_bitfields cores bitfields h1) h2 =
      select_availability_bitfields cores bitfields h1 := by
  have hinv : MapInv cores (bitfields.foldl (select_step cores) []) :=
    select_fold_inv cores bitfields [] ⟨List.Pairwise.nil, by simp⟩
  have hgood : ∀ b ∈ select_availability_bitfields cores bitfields h1,
      goodPayload cores b.payload := by
    intro b hb
    rw [select_availability_bitfields, List.mem_map] at hb
    obtain ⟨e, he, rfl⟩ := hb
    exact (hinv.2 e he).2
  have hsorted : (select_availability_bitfields cores bitfields h1).Pairwise
      (fun a b => a.validator_index < b.validator_index) := by
    rw [select_availability_bitfields, List.pairwise_map]
    refine List.Pairwise.imp_of_mem ?_ hinv.1
    intro a b ha hb hlt
    rw [← (hinv.2 a ha).1, ← (hinv.2 b hb).1]
    exact hlt
  conv_lhs => rw [select_availability_bitfields]
  rw [select_fold_append cores (select_availability_bitfields cores bitfields h1) []
    (by simp) hgood hsorted]
  simp only [List.nil_append, List.map_map]
  have hcomp : (Prod.snd ∘ fun b : Bitfield => (b.validator_index, b)) = id := rfl
  rw [hcomp, List.map_id]

/-! ## Availability predicate (`bitfields_indicate_availability`, lines 647-678)
and the per-core dispatch of `select_candidates` (lines 512-535). -/

/-- `bitfields_indicate_availability`: clone `availability`, OR each
bitfield's bit at `core_idx` into position `validator_index`, return
`false` as soon as a validator index is out of range, and finally test
`3 * availability.count_ones() >= 2 * availability.len()`.  The result
is `none` when `bitfield.payload().0[core_idx]` would panic (`core_idx`
out of range of a payload reached by the loop); the out-of-range
validator check comes first in the source, as here. -/
def bitfields_indicate_availability (core_idx : Nat) :
    List Bitfield → List Bool → Option Bool
  | [], availability =>
    some (decide (3 * count_ones availability ≥ 2 * availability.length))
  | b :: rest, availability =>
    match availability[b.validator_index]? with
    | none => some false
    | some old =>
      match b.payload[core_idx]? with
      | none => none
      | some bit =>
        bitfields_indicate_availability core_idx rest
          (availability.set b.validator_index (old || bit))

/-- The OR-accumulation of the loop in isolation: the bitvec obtained by
OR-ing each bitfield's bit at `core_idx` into position
`validator_index` of a copy of `availability` (`List.set` is the
identity on out-of-range indices). -/
def or_transverse (core_idx : Nat) : List Bitfield → List Bool → List Bool
  | [], availability => availability
  | b :: rest, availability =>
    or_transverse core_idx rest
      (availability.set b.validator_index
        (availability.getD b.validator_index false || b.payload.getD core_idx false))

/-- `OccupiedCoreAssumption` from `polkadot_primitives::v2`. -/
inductive OccupiedCoreAssumption where
  | Free : OccupiedCoreAssumption
  | Included : OccupiedCoreAssumption
  | TimedOut : OccupiedCoreAssumption
deriving DecidableEq

/-- The per-core `match core` of `select_candidates` (lines 512-535),
deciding the scheduled core and occupied-core assumption to use for one
core, or skipping it (`continue` becomes `some none`).  `none` models
the panic propagated from `bitfields_indicate_availability`. -/
def core_decision (core_idx : Nat) (core : CoreState) (bitfields : List Bitfield)
    (block_number : Nat) : Option (Option (ScheduledCore × OccupiedCoreAssumption)) :=
  match core with
  | CoreState.Free => some none
  | CoreState.Scheduled sc => some (some (sc, OccupiedCoreAssumption.Free))
  | CoreState.Occupied oc =>
    match bitfields_indicate_availability core_idx bitfields oc.availability with
    | none => none
    | some true =>
      match oc.next_up_on_available with
      | some sc => some (some (sc, OccupiedCoreAssumption.Included))
      | none => some none
    | some false =>
      if oc.time_out_at ≠ block_number then some none
      else
        match oc.next_up_on_time_out with
        | some sc => some (some (sc, OccupiedCoreAssumption.TimedOut))
        | none => some none

/-- Claim C4: provided no payload indexing panics (`core_idx` in range
of every payload), `bitfields_indicate_availability` returns `true` iff
every bitfield's validator index is in range of `availability` and
3 times the popcount of the OR-accumulated bitvec is at least 2 times
its length; in particular an out-of-range validator index yields
`false`. -/
theorem claim_C4_availability (core_idx : Nat) (bitfields : List Bitfield)
    (availability : List Bool)
    (hc : ∀ b ∈ bitfields, core_idx < b.payload.length) :
    bitfields_indicate_availability core_idx bitfields availability =
      some ((bitfields.all fun b => decide (b.validator_index < availability.length)) &&
        decide (3 * count_ones (or_transverse core_idx bitfields availability) ≥
          2 * availability.length)) := by
  induction bitfields generalizing availability with
  | nil => simp [bitfields_indicate_availability, or_transverse]
  | cons b rest ih =>
    rw [bitfields_indicate_availability]
    cases hv : availability[b.validator_index]? with
    | none =>
      rw [List.getElem?_eq_none_iff] at hv
      simp [Nat.not_lt.mpr hv]
    | some old =>
      have hvlt : b.validator_index < availability.length := by
        by_contra hge
        rw [List.getElem?_eq_none (by omega)] at hv
        exact absurd hv (by simp)
      have hcore : core_idx < b.payload.length := hc b (List.mem_cons_self _ _)
      rw [List.getElem?_eq_getElem hcore]
      have hrec := ih (availability.set b.validator_index (old || b.payload[core_idx]))
        (fun b' hb' => hc b' (List.mem_cons_of_mem _ hb'))
      have hor : or_transverse core_idx (b :: rest) availability =
          or_transverse core_idx rest
            (availability.set b.validator_index (old || b.payload[core_idx])) := by
        rw [or_transverse]
        have hg1 : availability.getD b.validator_index false = old := by
          rw [List.getD_eq_getElem?_getD, hv]
          rfl
        have hg2 : b.payload.getD core_idx false = b.payload[core_idx] := by
          rw [List.getD_eq_getElem?_getD, List.getElem?_eq_getElem hcore]
          rfl
        rw [hg1, hg2]
      show bitfields_indicate_availability core_idx rest
          (availability.set b.validator_index (old || b.payload[core_idx])) = _
      rw [hrec, hor]
      simp [hvlt, List.length_set]

theorem claim_C4_availability_witness :
    bitfields_indicate_availability 0 [Bitfield.mk 0 [true]] [false] = some true := by
  have h := claim_C4_availability 0 [Bitfield.mk 0 [true]] [false] (by decide)
  rw [h]
  decide

/-- Claim C10: with an empty bitfield list the availability predicate
reduces to `3 * popcount(availability) >= 2 * len(availability)` on the
unmodified bitvec; in particular it returns `true` on a zero-length
availability bitvec, and an occupied core with empty availability and
`next_up_on_available = Some(sc)` takes the `Included` branch. -/
theorem claim_C10_empty_bitfields (core_idx : Nat) (availability : List Bool)
    (oc : OccupiedCore) (block_number : Nat) (sc : ScheduledCore)
    (havail : oc.availability = [])
    (hnext : oc.next_up_on_available = some sc) :
    bitfields_indicate_availability core_idx [] availability =
      some (decide (3 * count_ones availability ≥ 2 * availability.length)) ∧
    bitfields_indicate_availability core_idx [] [] = some true ∧
    core_decision core_idx (CoreState.Occupied oc) [] block_number =
      some (some (sc, OccupiedCoreAssumption.Included)) := by
  refine ⟨rfl, rfl, ?_⟩
  rw [core_decision, havail]
  simp [bitfields_indicate_availability, count_ones, hnext]

theorem claim_C10_empty_bitfields_witness :
    core_decision 3 (CoreState.Occupied (OccupiedCore.mk [] (some (ScheduledCore.mk 7)) 0 none))
        [] 42 =
      some (some (ScheduledCore.mk 7, OccupiedCoreAssumption.Included)) :=
  (claim_C10_empty_bitfields 3 [] (OccupiedCore.mk [] (some (ScheduledCore.mk 7)) 0 none)
    42 (ScheduledCore.mk 7) rfl rfl).2.2

/-! ## Bounded random sampler and dispute selection
(`extend_by_random_subset_without_repetition`, lines 733-758, and
`select_disputes`, lines 764-944)

A dispute key `(SessionIndex, CandidateHash)` becomes `Nat × Nat`. -/

/-- The comparator of `acc.sort_unstable_by(|a, b| a.0.cmp(&b.0))`:
ascending session index. -/
def sessionLE (a b : Nat × Nat) : Prop := a.1 ≤ b.1

instance : DecidableRel sessionLE := fun a b => Nat.decLe a.1 b.1

instance : IsTotal (Nat × Nat) sessionLE := ⟨fun a b => Nat.le_total a.1 b.1⟩

instance : IsTrans (Nat × Nat) sessionLE := ⟨fun _ _ _ => Nat.le_trans⟩

/-- `Vec::swap_remove(idx)`: return the element at `idx` together with
the vector where the last element has been moved into its place.
Faithful whenever `idx` is in range, which is the only way the sampling
loop calls it; the default `d` never surfaces there. -/
def swapRemove (l : List (Nat × Nat)) (idx : Nat) (d : Nat × Nat) :
    (Nat × Nat) × List (Nat × Nat) :=
  (l.getD idx d, (l.set idx (l.getLastD d)).dropLast)

/-- The sampling loop (lines 750-754): `for _ in 0..n { let idx =
rng.gen_range(0..unique_new.len()); acc.push(unique_new.swap_remove(idx)); }`.
The random source is an explicit list of draws, one per iteration,
reduced modulo the current pool length exactly as a uniform draw from
`0..len` is a value below `len`.  The loop is only entered when
`unique_new.len() > n`, so along real executions the pool stays
non-empty (`gen_range(0..0)` would panic). -/
def pickRandom (d : Nat × Nat) : Nat → List (Nat × Nat) → List Nat → List (Nat × Nat)
  | 0, _, _ => []
  | n + 1, pool, rand =>
    (swapRemove pool (rand.headD 0 % pool.length) d).1 ::
      pickRandom d n (swapRemove pool (rand.headD 0 % pool.length) d).2 rand.tail

/-- `extend_by_random_subset_without_repetition` (lines 733-758).  The
`HashSet` lookup table `lut` becomes a direct `acc.contains` filter over
the extension; `rand` supplies the loop's random draws; the final
`sort_unstable_by(|a, b| a.0.cmp(&b.0))` becomes an insertion sort by
ascending session index (the source's sort is unstable, i.e. an
unspecified reordering of equal keys, so any sorted permutation is a
faithful model). -/
def extend_by_random_subset_without_repetition
    (acc extension : List (Nat × Nat)) (n : Nat) (rand : List Nat) : List (Nat × Nat) :=
  if (extension.filter fun r => !acc.contains r).length ≤ n then
    List.insertionSort sessionLE (acc ++ extension.filter fun r => !acc.contains r)
  else
    List.insertionSort sessionLE
      (acc ++ pickRandom (0, 0) n (extension.filter fun r => !acc.contains r) rand)

/-- `MAX_DISPUTES_FORWARDED_TO_RUNTIME` (line 762). -/
def MAX_DISPUTES_FORWARDED_TO_RUNTIME : Nat := 1000

/-- The helper lambda `generate_unseen_active_subset` of
`select_disputes` (lines 772-800).  `onchain` is the membership test of
the runtime's on-chain dispute map; `active.partition` becomes the two
complementary filters. -/
def generate_unseen_active_subset (active : List (Nat × Nat))
    (onchain : Nat × Nat → Bool) (rand : List Nat) : List (Nat × Nat) :=
  if (active.filter fun d => !onchain d).length > MAX_DISPUTES_FORWARDED_TO_RUNTIME then
    extend_by_random_subset_without_repetition [] (active.filter fun d => !onchain d)
      MAX_DISPUTES_FORWARDED_TO_RUNTIME rand
  else
    extend_by_random_subset_without_repetition (active.filter fun d => !onchain d)
      (active.filter onchain)
      (MAX_DISPUTES_FORWARDED_TO_RUNTIME - (active.filter fun d => !onchain d).length) rand

/-- The helper lambda `generate_active_and_unseen_recent_subset` of
`select_disputes` (lines 804-833).  The two sampler calls draw fresh
randomness, hence the two random sources. -/
def generate_active_and_unseen_recent_subset (recent active : List (Nat × Nat))
    (onchain : Nat × Nat → Bool) (rand1 rand2 : List Nat) : List (Nat × Nat) :=
  if (extend_by_random_subset_without_repetition active
        (recent.filter fun d => !onchain d)
        (MAX_DISPUTES_FORWARDED_TO_RUNTIME - active.length) rand1).length <
      MAX_DISPUTES_FORWARDED_TO_RUNTIME then
    extend_by_random_subset_without_repetition
      (extend_by_random_subset_without_repetition active
        (recent.filter fun d => !onchain d)
        (MAX_DISPUTES_FORWARDED_TO_RUNTIME - active.length) rand1)
      (recent.filter onchain)
      (MAX_DISPUTES_FORWARDED_TO_RUNTIME -
        (extend_by_random_subset_without_repetition active
          (recent.filter fun d => !onchain d)
          (MAX_DISPUTES_FORWARDED_TO_RUNTIME - active.length) rand1).length) rand2
  else
    extend_by_random_subset_without_repetition active
      (recent.filter fun d => !onchain d)
      (MAX_DISPUTES_FORWARDED_TO_RUNTIME - active.length) rand1

/-- The dispute-key selection of `select_disputes` (lines 888-903),
stopping right before the `request_votes` query.  `recent` and `active`
are the dispute coordinator's replies (the latter only consulted in the
overflow branch), `onchain` the membership test of the runtime's
on-chain dispute map (empty map on error), and `rand1`, `rand2` the
random draws consumed by the helper subsets. -/
def select_dispute_keys (recent active : List (Nat × Nat))
    (onchain : Nat × Nat → Bool) (rand1 rand2 : List Nat) : List (Nat × Nat) :=
  if recent.length > MAX_DISPUTES_FORWARDED_TO_RUNTIME then
    if active.length > MAX_DISPUTES_FORWARDED_TO_RUNTIME then
      generate_unseen_active_subset active onchain rand1
    else
      generate_active_and_unseen_recent_subset recent active onchain rand1 rand2
  else recent

/-! ### Lemmas about the sampler -/

theorem getLastD_eq_getLast (l : List (Nat × Nat)) (hl : l ≠ []) (a : Nat × Nat) :
    l.getLastD a = l.getLast hl := by
  rw [List.getLastD_eq_getLast?, List.getLast?_eq_getLast _ hl]
  rfl

theorem swapRemove_perm (l : List (Nat × Nat)) (idx : Nat) (d : Nat × Nat)
    (h : idx < l.length) :
    ((swapRemove l idx d).1 :: (swapRemove l idx d).2).Perm l := by
  induction l generalizing idx with
  | nil => simp at h
  | cons x xs ih =>
    cases idx with
    | zero =>
      cases xs with
      | nil => simp [swapRemove]
      | cons y ys =>
        rw [swapRemove]
        simp only [List.getD_cons_zero, List.set_cons_zero, List.getLastD_cons]
        rw [List.dropLast_cons_of_ne_nil (by simp)]
        refine List.Perm.cons x ?_
        have hlast : ys.getLastD y = (y :: ys).getLast (by simp) := by
          have h1 := List.getLastD_cons x y ys
          rw [← h1]
          exact getLastD_eq_getLast (y :: ys) (by simp) x
        rw [hlast]
        have hp : ((y :: ys).getLast (by simp) :: (y :: ys).dropLast).Perm
            ((y :: ys).dropLast ++ [(y :: ys).getLast (by simp)]) :=
          (List.perm_append_singleton _ _).symm
        rw [List.dropLast_concat_getLast (by simp)] at hp
        exact hp
    | succ i =>
      have hi : i < xs.length := by simpa using h
      have hxs : xs ≠ [] := by
        intro hx
        rw [hx] at hi
        simp at hi
      rw [swapRemove]
      simp only [List.getD_cons_succ, List.set_cons_succ, List.getLastD_cons]
      rw [List.dropLast_cons_of_ne_nil (by simp [hxs])]
      have hlast : xs.getLastD x = xs.getLastD d := by
        rw [getLastD_eq_getLast xs hxs x, getLastD_eq_getLast xs hxs d]
      rw [hlast]
      have hperm := ih i hi
      rw [swapRemove] at hperm
      exact List.Perm.trans (List.Perm.swap x (xs.getD i d) _) (List.Perm.cons x hperm)

theorem pickRandom_length (d : Nat × Nat) :
    ∀ (n : Nat) (pool : List (Nat × Nat)) (rand : List Nat),
      (pickRandom d n pool rand).length = n := by
  intro n
  induction n with
  | zero => intro pool rand; rfl
  | succ n ih => intro pool rand; simp [pickRandom, ih]

theorem pickRandom_mem_nodup (d : Nat × Nat) :
    ∀ (n : Nat) (pool : List (Nat × Nat)) (rand : List Nat),
      n ≤ pool.length →
      (∀ x ∈ pickRandom d n pool rand, x ∈ pool) ∧
      (pool.Nodup → (pickRandom d n pool rand).Nodup) := by
  intro n
  induction n with
  | zero => intro pool rand _; exact ⟨by simp [pickRandom], by simp [pickRandom]⟩
  | succ n ih =>
    intro pool rand hn
    have hpos : 0 < pool.length := by omega
    have hidx : rand.headD 0 % pool.length < pool.length := Nat.mod_lt _ hpos
    have hperm := swapRemove_perm pool (rand.headD 0 % pool.length) d hidx
    have hlen2 : (swapRemove pool (rand.headD 0 % pool.length) d).2.length =
        pool.length - 1 := by
      have := hperm.length_eq
      simp only [List.length_cons] at this
      omega
    obtain ⟨ihmem, ihnd⟩ := ih (swapRemove pool (rand.headD 0 % pool.length) d).2
      rand.tail (by omega)
    constructor
    · intro x hx
      rw [pickRandom, List.mem_cons] at hx
      rcases hx with hx | hx
      · subst hx
        exact hperm.mem_iff.mp (List.mem_cons_self _ _)
      · exact hperm.mem_iff.mp (List.mem_cons_of_mem _ (ihmem x hx))
    · intro hnd
      have hnd2 : ((swapRemove pool (rand.headD 0 % pool.length) d).1 ::
          (swapRemove pool (rand.headD 0 % pool.length) d).2).Nodup :=
        hperm.symm.nodup hnd
      rw [List.nodup_cons] at hnd2
      rw [pickRandom, List.nodup_cons]
      exact ⟨fun hmem => hnd2.1 (ihmem _ hmem), ihnd hnd2.2⟩

theorem extend_length_le (acc extension : List (Nat × Nat)) (n : Nat) (rand : List Nat) :
    (extend_by_random_subset_without_repetition acc extension n rand).length ≤
      acc.length + n := by
  rw [extend_by_random_subset_without_repetition]
  by_cases h : (extension.filter fun r => !acc.contains r).length ≤ n
  · rw [if_pos h, (List.perm_insertionSort sessionLE _).length_eq, List.length_append]
    omega
  · rw [if_neg h, (List.perm_insertionSort sessionLE _).length_eq, List.length_append,
      pickRandom_length]

theorem extend_mem {acc extension : List (Nat × Nat)} {n : Nat} {rand : List Nat}
    {x : Nat × Nat}
    (hx : x ∈ extend_by_random_subset_without_repetition acc extension n rand) :
    x ∈ acc ∨ x ∈ extension := by
  rw [extend_by_random_subset_without_repetition] at hx
  by_cases h : (extension.filter fun r => !acc.contains r).length ≤ n
  · rw [if_pos h, List.mem_insertionSort, List.mem_append] at hx
    rcases hx with hx | hx
    · exact Or.inl hx
    · exact Or.inr (List.mem_filter.mp hx).1
  · rw [if_neg h, List.mem_insertionSort, List.mem_append] at hx
    rcases hx with hx | hx
    · exact Or.inl hx
    · have hmem := (pickRandom_mem_nodup (0, 0) n
        (extension.filter fun r => !acc.contains r) rand (by omega)).1 x hx
      exact Or.inr (List.mem_filter.mp hmem).1

theorem extend_keeps_acc {acc extension : List (Nat × Nat)} {n : Nat} {rand : List Nat}
    (x : Nat × Nat) (hx : x ∈ acc) :
    x ∈ extend_by_random_subset_without_repetition acc extension n rand := by
  rw [extend_by_random_subset_without_repetition]
  by_cases h : (extension.filter fun r => !acc.contains r).length ≤ n
  · rw [if_pos h, List.mem_insertionSort, List.mem_append]
    exact Or.inl hx
  · rw [if_neg h, List.mem_insertionSort, List.mem_append]
    exact Or.inl hx

theorem extend_sorted (acc extension : List (Nat × Nat)) (n : Nat) (rand : List Nat) :
    List.Sorted sessionLE (extend_by_random_subset_without_repetition acc extension n rand) := by
  rw [extend_by_random_subset_without_repetition]
  by_cases h : (extension.filter fun r => !acc.contains r).length ≤ n
  · rw [if_pos h]
    exact List.sorted_insertionSort sessionLE _
  · rw [if_neg h]
    exact List.sorted_insertionSort sessionLE _

theorem extend_nodup {acc extension : List (Nat × Nat)} {n : Nat} {rand : List Nat}
    (hacc : acc.Nodup) (hext : extension.Nodup) :
    (extend_by_random_subset_without_repetition acc extension n rand).Nodup := by
  rw [extend_by_random_subset_without_repetition]
  by_cases h : (extension.filter fun r => !acc.contains r).length ≤ n
  · rw [if_pos h]
    refine (List.perm_insertionSort sessionLE _).symm.nodup ?_
    rw [List.nodup_append]
    refine ⟨hacc, hext.filter _, ?_⟩
    intro x hxa hxf
    have hc := (List.mem_filter.mp hxf).2
    rw [Bool.not_eq_true'] at hc
    have hmemc : acc.contains x = true := List.elem_iff.mpr hxa
    rw [hc] at hmemc
    simp at hmemc
  · rw [if_neg h]
    refine (List.perm_insertionSort sessionLE _).symm.nodup ?_
    rw [List.nodup_append]
    obtain ⟨hmem, hnd⟩ := pickRandom_mem_nodup (0, 0) n
      (extension.filter fun r => !acc.contains r) rand (by omega)
    refine ⟨hacc, hnd (hext.filter _), ?_⟩
    intro x hxa hxp
    have hc := (List.mem_filter.mp (hmem x hxp)).2
    rw [Bool.not_eq_true'] at hc
    have hmemc : acc.contains x = true := List.elem_iff.mpr hxa
    rw [hc] at hmemc
    simp at hmemc

/-- Claim C6 (amended): when the accumulator and also the extension are
duplicate-free, after `extend_by_random_subset_without_repetition` the
accumulator is duplicate-free, has gained at most `n` entries, every
entry comes from the old accumulator or the extension (and every old
entry is kept), and the result is sorted by ascending session index.
The `extension.Nodup` hypothesis is necessary: the lookup table only
filters the extension against the accumulator, so internal duplicates of
the extension survive and can enter the accumulator twice. -/
theorem claim_C6_sampler (acc extension : List (Nat × Nat)) (n : Nat) (rand : List Nat)
    (hacc : acc.Nodup) (hext : extension.Nodup) :
    (extend_by_random_subset_without_repetition acc extension n rand).Nodup ∧
    (extend_by_random_subset_without_repetition acc extension n rand).length ≤
      acc.length + n ∧
    (∀ x ∈ extend_by_random_subset_without_repetition acc extension n rand,
      x ∈ acc ∨ x ∈ extension) ∧
    (∀ x ∈ acc, x ∈ extend_by_random_subset_without_repetition acc extension n rand) ∧
    List.Sorted sessionLE (extend_by_random_subset_without_repetition acc extension n rand) :=
  ⟨extend_nodup hacc hext, extend_length_le acc extension n rand,
    fun _ hx => extend_mem hx, fun x hx => extend_keeps_acc x hx,
    extend_sorted acc extension n rand⟩

/-- Claim C6 as stated is false at a concrete input: the extension
`[(0,0), (0,0)]` carries an internal duplicate, is disjoint from the
empty accumulator, and both copies survive the `lut` filter, so the
accumulator ends with a duplicate entry. -/
theorem claim_C6_counterexample :
    ¬ (extend_by_random_subset_without_repetition [] [(0, 0), (0, 0)] 2 []).Nodup := by
  decide

theorem claim_C6_sampler_witness :
    (extend_by_random_subset_without_repetition [(1, 1)] [(0, 0)] 1 []).Nodup :=
  (claim_C6_sampler [(1, 1)] [(0, 0)] 1 [] (by decide) (by decide)).1

theorem generate_unseen_spec (active : List (Nat × Nat)) (onchain : Nat × Nat → Bool)
    (rand : List Nat) :
    (generate_unseen_active_subset active onchain rand).length ≤
      MAX_DISPUTES_FORWARDED_TO_RUNTIME ∧
    ∀ x ∈ generate_unseen_active_subset active onchain rand, x ∈ active := by
  rw [generate_unseen_active_subset]
  by_cases h : (active.filter fun d => !onchain d).length >
      MAX_DISPUTES_FORWARDED_TO_RUNTIME
  · rw [if_pos h]
    constructor
    · have hl := extend_length_le [] (active.filter fun d => !onchain d)
        MAX_DISPUTES_FORWARDED_TO_RUNTIME rand
      simpa using hl
    · intro x hx
      rcases extend_mem hx with hx' | hx'
      · simp at hx'
      · exact (List.mem_filter.mp hx').1
  · rw [if_neg h]
    constructor
    · have hl := extend_length_le (active.filter fun d => !onchain d)
        (active.filter onchain)
        (MAX_DISPUTES_FORWARDED_TO_RUNTIME - (active.filter fun d => !onchain d).length)
        rand
      omega
    · intro x hx
      rcases extend_mem hx with hx' | hx'
      · exact (List.mem_filter.mp hx').1
      · exact (List.mem_filter.mp hx').1

theorem generate_active_recent_spec (recent active : List (Nat × Nat))
    (onchain : Nat × Nat → Bool) (rand1 rand2 : List Nat)
    (hact : active.length ≤ MAX_DISPUTES_FORWARDED_TO_RUNTIME) :
    (generate_active_and_unseen_recent_subset recent active onchain rand1 rand2).length ≤
      MAX_DISPUTES_FORWARDED_TO_RUNTIME ∧
    ∀ x ∈ generate_active_and_unseen_recent_subset recent active onchain rand1 rand2,
      x ∈ recent ∨ x ∈ active := by
  have hacc1len := extend_length_le active (recent.filter fun d => !onchain d)
    (MAX_DISPUTES_FORWARDED_TO_RUNTIME - active.length) rand1
  have hacc1mem : ∀ x ∈ extend_by_random_subset_without_repetition active
      (recent.filter fun d => !onchain d)
      (MAX_DISPUTES_FORWARDED_TO_RUNTIME - active.length) rand1,
      x ∈ recent ∨ x ∈ active := by
    intro x hx
    rcases extend_mem hx with hx' | hx'
    · exact Or.inr hx'
    · exact Or.inl (List.mem_filter.mp hx').1
  rw [generate_active_and_unseen_recent_subset]
  by_cases h : (extend_by_random_subset_without_repetition active
      (recent.filter fun d => !onchain d)
      (MAX_DISPUTES_FORWARDED_TO_RUNTIME - active.length) rand1).length <
      MAX_DISPUTES_FORWARDED_TO_RUNTIME
  · rw [if_pos h]
    constructor
    · have hl := extend_length_le (extend_by_random_subset_without_repetition active
          (recent.filter fun d => !onchain d)
          (MAX_DISPUTES_FORWARDED_TO_RUNTIME - active.length) rand1)
        (recent.filter onchain)
        (MAX_DISPUTES_FORWARDED_TO_RUNTIME -
          (extend_by_random_subset_without_repetition active
            (recent.filter fun d => !onchain d)
            (MAX_DISPUTES_FORWARDED_TO_RUNTIME - active.length) rand1).length) rand2
      omega
    · intro x hx
      rcases extend_mem hx with hx' | hx'
      · exact hacc1mem x hx'
      · exact Or.inl (List.mem_filter.mp hx').1
  · rw [if_neg h]
    exact ⟨by omega, hacc1mem⟩

/-- Claim C5: the dispute keys chosen by `select_disputes` before the
votes query never exceed `MAX_DISPUTES_FORWARDED_TO_RUNTIME = 1000`;
when the recent-disputes list fits within the limit the chosen keys are
exactly `recent`; and every chosen key is drawn from `recent` or
`active`. -/
theorem claim_C5_dispute_selection (recent active : List (Nat × Nat))
    (onchain : Nat × Nat → Bool) (rand1 rand2 : List Nat) :
    (select_dispute_keys recent active onchain rand1 rand2).length ≤
      MAX_DISPUTES_FORWARDED_TO_RUNTIME ∧
    (recent.length ≤ MAX_DISPUTES_FORWARDED_TO_RUNTIME →
      select_dispute_keys recent active onchain rand1 rand2 = recent) ∧
    ∀ x ∈ select_dispute_keys recent active onchain rand1 rand2,
      x ∈ recent ∨ x ∈ active := by
  rw [select_dispute_keys]
  by_cases hr : recent.length > MAX_DISPUTES_FORWARDED_TO_RUNTIME
  · rw [if_pos hr]
    by_cases ha : active.length > MAX_DISPUTES_FORWARDED_TO_RUNTIME
    · rw [if_pos ha]
      obtain ⟨hlen, hmem⟩ := generate_unseen_spec active onchain rand1
      exact ⟨hlen, fun hcon => absurd hcon (by omega),
        fun x hx => Or.inr (hmem x hx)⟩
    · rw [if_neg ha]
      obtain ⟨hlen, hmem⟩ :=
        generate_active_recent_spec recent active onchain rand1 rand2 (by omega)
      exact ⟨hlen, fun hcon => absurd hcon (by omega), hmem⟩
  · rw [if_neg hr]
    exact ⟨by omega, fun _ => rfl, fun x hx => Or.inl hx⟩

theorem claim_C5_dispute_selection_witness :
    select_dispute_keys [(1, 2)] [] (fun _ => false) [] [] = [(1, 2)] :=
  (claim_C5_dispute_selection [(1, 2)] [] (fun _ => false) [] []).2.1 (by decide)

/-! ## Main loop state machine (`run_iteration`, lines 137-174,
`handle_active_leaves_update`, lines 176-190, `handle_communication`,
lines 192-231, `note_provisionable_data`, lines 296-320)

Relay-parent hashes and waiter channels become `Nat` identifiers.  One
background assembly launched by `send_inherent_data_bg` is recorded as
the list of waiters (`return_senders`) it covers. -/

/-- `ProvisionableData`: a signed bitfield, a backed candidate (kept as
its hash), or any other variant (ignored by the provisioner). -/
inductive ProvData where
  | BitfieldData : Bitfield → ProvData
  | BackedCandidateData : Nat → ProvData
  | OtherData : ProvData

/-- `PerRelayParent` (lines 78-85); the leaf descriptor and tracing span
play no role in the claims and are omitted. -/
structure PerRelayParent where
  backed_candidates : List Nat
  signed_bitfields : List Bitfield
  is_inherent_ready : Bool
  awaiting_inherent : List Nat

/-- `PerRelayParent::new` (lines 87-99). -/
def PerRelayParent.fresh : PerRelayParent :=
  PerRelayParent.mk [] [] false []

/-- The `HashMap<Hash, PerRelayParent>` owned by the loop. -/
def PState := Nat → Option PerRelayParent

/-- The empty store the loop starts from (`run`, line 121). -/
def initialState : PState := fun _ => none

/-- Point update of the store (`HashMap::insert` / entry mutation). -/
def updateState (s : PState) (rp : Nat) (v : Option PerRelayParent) : PState :=
  fun h => if h = rp then v else s h

theorem updateState_apply (s : PState) (rp : Nat) (v : Option PerRelayParent) (h : Nat) :
    updateState s rp v h = if h = rp then v else s h := rfl

/-- One event consumed by the `futures::select!` of `run_iteration`:
an `ActiveLeaves` signal (activated hashes, deactivated hashes), a
`BlockFinalized` signal (a no-op), one of the two provisioner messages,
or the completion of a readiness delay. -/
inductive PEvent where
  | activeLeaves : List Nat → List Nat → PEvent
  | blockFinalized : PEvent
  | requestInherentData : Nat → Nat → PEvent
  | provisionableData : Nat → ProvData → PEvent
  | delayFired : Nat → PEvent

/-- `note_provisionable_data` (lines 296-320): bitfields and backed
candidates are appended; other variants ignored. -/
def note_provisionable_data (st : PerRelayParent) : ProvData → PerRelayParent
  | ProvData.BitfieldData b =>
    PerRelayParent.mk st.backed_candidates (st.signed_bitfields ++ [b])
      st.is_inherent_ready st.awaiting_inherent
  | ProvData.BackedCandidateData c =>
    PerRelayParent.mk (st.backed_candidates ++ [c]) st.signed_bitfields
      st.is_inherent_ready st.awaiting_inherent
  | ProvData.OtherData => st

/-- One iteration of the main loop.  The second component lists the
background assemblies launched while handling the event, each given as
the `return_senders` list passed to `send_inherent_data_bg`.  Handling
follows the source: deactivated parents are dropped and activated ones
inserted fresh (lines 176-190); `RequestInherentData` launches an
assembly for `[return_sender]` when ready, otherwise queues the sender
(lines 200-217); `ProvisionableData` mutates a present entry (lines
218-227); a fired delay for a present parent marks it ready, drains the
waiters and launches one assembly covering all of them when non-empty
(lines 156-171). -/
def step (s : PState) : PEvent → PState × List (List Nat)
  | PEvent.activeLeaves activated deactivated =>
    (activated.foldl (fun acc h => updateState acc h (some PerRelayParent.fresh))
      (fun h => if deactivated.contains h then none else s h), [])
  | PEvent.blockFinalized => (s, [])
  | PEvent.requestInherentData rp w =>
    match s rp with
    | none => (s, [])
    | some st =>
      if st.is_inherent_ready then (s, [[w]])
      else
        (updateState s rp (some (PerRelayParent.mk st.backed_candidates
          st.signed_bitfields st.is_inherent_ready (st.awaiting_inherent ++ [w]))), [])
  | PEvent.provisionableData rp d =>
    match s rp with
    | none => (s, [])
    | some st => (updateState s rp (some (note_provisionable_data st d)), [])
  | PEvent.delayFired rp =>
    match s rp with
    | none => (s, [])
    | some st =>
      (updateState s rp (some (PerRelayParent.mk st.backed_candidates
          st.signed_bitfields true [])),
        if st.awaiting_inherent.isEmpty then [] else [st.awaiting_inherent])

/-- The store after consuming a list of events from the empty store. -/
def runEvents (events : List PEvent) : PState :=
  events.foldl (fun s e => (step s e).1) initialState

/-- The readiness invariant: an entry with pending waiters is not yet
marked ready. -/
def ReadyInv (s : PState) : Prop :=
  ∀ rp st, s rp = some st → st.awaiting_inherent ≠ [] → st.is_inherent_ready = false

theorem step_activeLeaves_eq (s : PState) (act deact : List Nat) :
    step s (PEvent.activeLeaves act deact) =
      (act.foldl (fun acc h => updateState acc h (some PerRelayParent.fresh))
        (fun h => if deact.contains h then none else s h), []) := rfl

theorem step_request_none {s : PState} {rp w : Nat} (h : s rp = none) :
    step s (PEvent.requestInherentData rp w) = (s, []) := by
  rw [step, h]

theorem step_request_some {s : PState} {rp w : Nat} {st : PerRelayParent}
    (h : s rp = some st) :
    step s (PEvent.requestInherentData rp w) =
      if st.is_inherent_ready then (s, [[w]])
      else
        (updateState s rp (some (PerRelayParent.mk st.backed_candidates
          st.signed_bitfields st.is_inherent_ready (st.awaiting_inherent ++ [w]))), []) := by
  rw [step, h]

theorem step_prov_none {s : PState} {rp : Nat} {d : ProvData} (h : s rp = none) :
    step s (PEvent.provisionableData rp d) = (s, []) := by
  rw [step, h]

theorem step_prov_some {s : PState} {rp : Nat} {d : ProvData} {st : PerRelayParent}
    (h : s rp = some st) :
    step s (PEvent.provisionableData rp d) =
      (updateState s rp (some (note_provisionable_data st d)), []) := by
  rw [step, h]

theorem step_delay_none {s : PState} {rp : Nat} (h : s rp = none) :
    step s (PEvent.delayFired rp) = (s, []) := by
  rw [step, h]

theorem step_delay_some {s : PState} {rp : Nat} {st : PerRelayParent}
    (h : s rp = some st) :
    step s (PEvent.delayFired rp) =
      (updateState s rp (some (PerRelayParent.mk st.backed_candidates
          st.signed_bitfields true [])),
        if st.awaiting_inherent.isEmpty then [] else [st.awaiting_inherent]) := by
  rw [step, h]

theorem foldl_insert_inv {act : List Nat} :
    ∀ {s : PState}, ReadyInv s →
      ReadyInv (act.foldl (fun acc h => updateState acc h (some PerRelayParent.fresh)) s) := by
  induction act with
  | nil => exact fun hs => hs
  | cons a act ih =>
    intro s hs
    rw [List.foldl_cons]
    refine ih ?_
    intro rp st hrp
    have hrp2 : (if rp = a then some PerRelayParent.fresh else s rp) = some st := hrp
    by_cases he : rp = a
    · rw [if_pos he] at hrp2
      injection hrp2 with hrp2
      subst hrp2
      intro _
      rfl
    · rw [if_neg he] at hrp2
      exact hs rp st hrp2

theorem step_preserves_ReadyInv {s : PState} (hs : ReadyInv s) (e : PEvent) :
    ReadyInv (step s e).1 := by
  cases e with
  | activeLeaves act deact =>
    rw [step_activeLeaves_eq]
    refine foldl_insert_inv ?_
    intro rp st hrp
    have hrp2 : (if deact.contains rp then none else s rp) = some st := hrp
    by_cases hd : deact.contains rp
    · rw [if_pos hd] at hrp2
      exact absurd hrp2 (by simp)
    · rw [if_neg hd] at hrp2
      exact hs rp st hrp2
  | blockFinalized => exact hs
  | requestInherentData rp w =>
    cases hrp : s rp with
    | none =>
      rw [step_request_none hrp]
      exact hs
    | some st =>
      rw [step_request_some hrp]
      by_cases hready : st.is_inherent_ready
      · rw [if_pos hready]
        exact hs
      · rw [if_neg hready]
        intro rp' st' hrp'
        have hrp2 : (if rp' = rp then
            some (PerRelayParent.mk st.backed_candidates st.signed_bitfields
              st.is_inherent_ready (st.awaiting_inherent ++ [w]))
          else s rp') = some st' := hrp'
        by_cases he : rp' = rp
        · rw [if_pos he] at hrp2
          injection hrp2 with hrp2
          subst hrp2
          intro _
          simpa using hready
        · rw [if_neg he] at hrp2
          exact hs rp' st' hrp2
  | provisionableData rp d =>
    cases hrp : s rp with
    | none =>
      rw [step_prov_none hrp]
      exact hs
    | some st =>
      rw [step_prov_some hrp]
      intro rp' st' hrp'
      have hrp2 : (if rp' = rp then some (note_provisionable_data st d) else s rp') =
          some st' := hrp'
      by_cases he : rp' = rp
      · rw [if_pos he] at hrp2
        injection hrp2 with hrp2
        subst hrp2
        cases d with
        | BitfieldData b => exact hs rp st hrp
        | BackedCandidateData c => exact hs rp st hrp
        | OtherData => exact hs rp st hrp
      · rw [if_neg he] at hrp2
        exact hs rp' st' hrp2
  | delayFired rp =>
    cases hrp : s rp with
    | none =>
      rw [step_delay_none hrp]
      exact hs
    | some st =>
      rw [step_delay_some hrp]
      intro rp' st' hrp'
      have hrp2 : (if rp' = rp then
          some (PerRelayParent.mk st.backed_candidates st.signed_bitfields true [])
        else s rp') = some st' := hrp'
      by_cases he : rp' = rp
      · rw [if_pos he] at hrp2
        injection hrp2 with hrp2
        subst hrp2
        intro habs
        exact absurd rfl habs
      · rw [if_neg he] at hrp2
        exact hs rp' st' hrp2

theorem runEvents_ReadyInv (events : List PEvent) : ReadyInv (runEvents events) := by
  rw [runEvents]
  have hgen : ∀ (es : List PEvent) (s : PState), ReadyInv s →
      ReadyInv (es.foldl (fun s e => (step s e).1) s) := by
    intro es
    induction es with
    | nil => exact fun s hs => hs
    | cons e es ih => exact fun s hs => ih _ (step_preserves_ReadyInv hs e)
  exact hgen events initialState (fun rp st hrp => absurd hrp (by simp [initialState]))

/-- Claim C9: in every store reachable by the main loop from the empty
store, an entry with a non-empty `awaiting_inherent` queue has
`is_inherent_ready = false`; and when the readiness delay fires for a
present relay parent, that entry becomes ready with its waiter queue
drained, while exactly one background assembly covering all drained
waiters is launched when there was at least one waiter, and none
otherwise. -/
theorem claim_C9_readiness (events : List PEvent) (s : PState) (rp : Nat)
    (st : PerRelayParent) :
    (∀ rp' st', runEvents events rp' = some st' →
      st'.awaiting_inherent ≠ [] → st'.is_inherent_ready = false) ∧
    (s rp = some st →
      (step s (PEvent.delayFired rp)).1 rp =
        some (PerRelayParent.mk st.backed_candidates st.signed_bitfields true []) ∧
      (step s (PEvent.delayFired rp)).2 =
        if st.awaiting_inherent.isEmpty then [] else [st.awaiting_inherent]) := by
  constructor
  · exact runEvents_ReadyInv events
  · intro hrp
    rw [step_delay_some hrp]
    constructor
    · show updateState s rp (some (PerRelayParent.mk st.backed_candidates
          st.signed_bitfields true [])) rp =
        some (PerRelayParent.mk st.backed_candidates st.signed_bitfields true [])
      rw [updateState_apply, if_pos rfl]
    · rfl

theorem claim_C9_readiness_witness :
    (step (updateState initialState 0 (some (PerRelayParent.mk [] [] false [5])))
        (PEvent.delayFired 0)).1 0 =
      some (PerRelayParent.mk [] [] true []) ∧
    (step (updateState initialState 0 (some (PerRelayParent.mk [] [] false [5])))
        (PEvent.delayFired 0)).2 = [[5]] := by
  have h := (claim_C9_readiness []
    (updateState initialState 0 (some (PerRelayParent.mk [] [] false [5]))) 0
    (PerRelayParent.mk [] [] false [5])).2 rfl
  refine ⟨h.1, ?_⟩
  rw [h.2]
  rfl

end Provisioner
